import Mathlib

/-!
Shallow embedding of the skillbot backend (src/app/rag.py, src/app/main.py,
src/app/models.py) and verification of its specification claims.

Conventions of the embedding:
* Python strings are modelled over their character sequences (`List Char`);
  `str.lower()` / `str.strip()` are modelled for ASCII text, which covers the
  whole Skill Dictionary and the regex word-character class used by the code.
* Python floats are modelled as rationals (`ℚ`); every numeric computation the
  claims mention (sums of the constant 0.7, division by a count, division of
  set cardinalities) is exact.
* Python dicts that preserve insertion order are modelled as association lists
  in insertion order; `set` values that are only ever sorted or counted are
  modelled as deduplicated lists.
* Fallible endpoints are modelled with `Except String`.
-/

attribute [local semireducible] Rat.add Rat.mul Rat.inv Rat.sub

set_option maxRecDepth 100000

/-- ASCII model of Python `str.lower()` applied characterwise. -/
def pyLowerChar (c : Char) : Char :=
  if 'A' ≤ c ∧ c ≤ 'Z' then Char.ofNat (c.toNat + 32) else c

/-- Lowering of a character sequence. -/
def pyLowerL (l : List Char) : List Char := l.map pyLowerChar

/-- Lowering of a string (`str.lower()`). -/
def pyLower (s : String) : String := ⟨pyLowerL s.data⟩

/-- Whitespace characters stripped by Python `str.strip()` (ASCII range). -/
def pyIsSpace (c : Char) : Bool :=
  c = ' ' || c = '\t' || c = '\n' || c = '\r' || c = '\x0b' || c = '\x0c'

/-- Model of `str.strip()` on a character sequence. -/
def pyStripL (l : List Char) : List Char :=
  ((l.dropWhile pyIsSpace).reverse.dropWhile pyIsSpace).reverse

/-- Model of `str.strip()` on a string. -/
def pyStrip (s : String) : String := ⟨pyStripL s.data⟩

/-- Word characters of the `re` module's `\b` boundary (ASCII range):
letters, digits and underscore. -/
def isWordChar (c : Char) : Bool := c.isAlphanum || c = '_'

/-- Word-character test on an optional character; the edge of the text counts
as a non-word position. -/
def isWordOpt : Option Char → Bool
  | none => false
  | some c => isWordChar c

/-- A `\b` boundary holds between two (optional) characters exactly when their
word-character statuses differ. -/
def boundary (a b : Option Char) : Bool := isWordOpt a != isWordOpt b

/-- Model of `re.search(r"\b" + re.escape(alias) + r"\b", text)` restricted to one
candidate start position: `alias` is a prefix of `text` here, with a word
boundary against the previous character `pre` and against the character that
follows the match. -/
def wholeWordAt (al : List Char) (pre : Option Char) (text : List Char) : Bool :=
  boundary pre al.head? && al.isPrefixOf text &&
    boundary al.getLast? (text.drop al.length).head?

/-- Scan of all start positions, carrying the previous character. -/
def hasWholeWordAux (al : List Char) (pre : Option Char) : List Char → Bool
  | [] => wholeWordAt al pre []
  | c :: rest => wholeWordAt al pre (c :: rest) || hasWholeWordAux al (some c) rest

/-- Model of `re.search(r"\b" + re.escape(alias) + r"\b", text)` as a Boolean:
does `alias` occur in `text` as a whole word? -/
def hasWholeWord (al text : List Char) : Bool :=
  hasWholeWordAux al none text

/-- One entry of the Skill Dictionary `SKILL_CONFIG` in `rag.py`. -/
structure SkillDef where
  name : String
  category : String
  aliases : List String
deriving DecidableEq, Repr

/-- The Skill Dictionary (`SKILL_CONFIG`, rag.py lines 45-181), verbatim. -/
def SKILL_CONFIG : List SkillDef := [
  ⟨"Python", "Programming Language", ["python", "py", "python3"]⟩,
  ⟨"Java", "Programming Language", ["java"]⟩,
  ⟨"JavaScript", "Programming Language", ["javascript", "js"]⟩,
  ⟨"TypeScript", "Programming Language", ["typescript", "ts"]⟩,
  ⟨"SQL", "Database / Query", ["sql", "t-sql", "pl/sql"]⟩,
  ⟨"React", "Frontend Framework", ["react", "reactjs"]⟩,
  ⟨"Node.js", "Backend Runtime", ["node", "node.js", "nodejs"]⟩,
  ⟨"Express", "Backend Framework", ["express", "expressjs"]⟩,
  ⟨"FastAPI", "Backend Framework", ["fastapi"]⟩,
  ⟨"Django", "Backend Framework", ["django"]⟩,
  ⟨"MongoDB", "Database", ["mongodb", "mongo"]⟩,
  ⟨"PostgreSQL", "Database", ["postgres", "postgresql"]⟩,
  ⟨"MySQL", "Database", ["mysql"]⟩,
  ⟨"AWS", "Cloud", ["aws", "amazon web services"]⟩,
  ⟨"Azure", "Cloud", ["azure"]⟩,
  ⟨"GCP", "Cloud", ["gcp", "google cloud"]⟩,
  ⟨"Docker", "DevOps / Containerization", ["docker"]⟩,
  ⟨"Kubernetes", "DevOps / Orchestration", ["kubernetes", "k8s"]⟩,
  ⟨"CI/CD", "DevOps", ["ci/cd", "cicd", "continuous integration", "continuous delivery"]⟩,
  ⟨"GitHub Actions", "DevOps", ["github actions"]⟩,
  ⟨"Jenkins", "DevOps", ["jenkins"]⟩,
  ⟨"Machine Learning", "ML / AI", ["machine learning", "ml", "ml/ai"]⟩,
  ⟨"Data Science", "Data / Analytics", ["data science", "data scientist"]⟩,
  ⟨"Pandas", "Data / Analytics", ["pandas"]⟩,
  ⟨"NumPy", "Data / Analytics", ["numpy", "np"]⟩,
  ⟨"LangChain", "LLM / RAG", ["langchain"]⟩,
  ⟨"ChromaDB", "Vector Database", ["chroma", "chromadb"]⟩]

/-- A skill record produced by the extractor
(`{"name": ..., "category": ..., "confidence": 0.7, "evidence": ...}`). -/
structure ExtractedSkill where
  name : String
  category : String
  confidence : ℚ
  evidence : String
deriving DecidableEq, Repr

/-- One step of `fallback_extract_skills`' outer loop (rag.py lines 194-208):
scan the definition's aliases in declared order for the first whole-word
match; on a match, append a record unless the name is already present, and
stop looking at further aliases of this definition. -/
def extractStep (text : List Char) (acc : List ExtractedSkill) (sk : SkillDef) :
    List ExtractedSkill :=
  match (sk.aliases.map pyLower).find? (fun a => hasWholeWord a.data text) with
  | some a =>
      if acc.any (fun e => e.name == sk.name) then acc
      else acc ++ [⟨sk.name, sk.category, 7/10, a⟩]
  | none => acc

/-- Model of `fallback_extract_skills` (rag.py lines 184-210): lower-case the message
once, then run the alias scan over the Skill Dictionary in declared order;
the insertion-ordered dict of found skills is the result list. -/
def fallback_extract_skills (message : String) : List ExtractedSkill :=
  (SKILL_CONFIG.foldl (extractStep (pyLowerL message.data)) [])

/-- The specification's description of the extractor (spec §4.1 / claim C1):
exactly one record per SkillDefinition one of whose aliases occurs in the text
as a whole word, in dictionary declaration order, with confidence 0.7 and
evidence the first matching alias in declared alias order. Stated
independently of the fold in the source for comparison. -/
def extractSpec (message : String) : List ExtractedSkill :=
  SKILL_CONFIG.filterMap (fun sk =>
    ((sk.aliases.map pyLower).find?
        (fun a => hasWholeWord a.data (pyLowerL message.data))).map
      (fun a => ⟨sk.name, sk.category, 7/10, a⟩))

example : fallback_extract_skills "py reactjs aws docker" =
    [⟨"Python", "Programming Language", 7/10, "py"⟩,
     ⟨"React", "Frontend Framework", 7/10, "reactjs"⟩,
     ⟨"AWS", "Cloud", 7/10, "aws"⟩,
     ⟨"Docker", "DevOps / Containerization", 7/10, "docker"⟩] := by decide

example : fallback_extract_skills "javascripting" = [] := by decide

/-- The accumulator fold of the extractor agrees with the one-pass
`filterMap` description as long as no accumulated record clashes with an
upcoming dictionary name and dictionary names are pairwise distinct. -/
lemma extract_foldl_eq (text : List Char) :
    ∀ (cfg : List SkillDef) (acc : List ExtractedSkill),
      (∀ sk ∈ cfg, ∀ e ∈ acc, e.name ≠ sk.name) →
      cfg.Pairwise (fun a b => a.name ≠ b.name) →
      cfg.foldl (extractStep text) acc =
        acc ++ cfg.filterMap (fun sk =>
          ((sk.aliases.map pyLower).find? (fun a => hasWholeWord a.data text)).map
            (fun a => ⟨sk.name, sk.category, 7/10, a⟩))
  | [], acc, _, _ => by simp
  | sk :: rest, acc, hacc, hpw => by
    have hpw' := (List.pairwise_cons.mp hpw)
    cases hfind : (sk.aliases.map pyLower).find? (fun a => hasWholeWord a.data text) with
    | none =>
        have hstep : extractStep text acc sk = acc := by
          simp [extractStep, hfind]
        rw [List.foldl_cons, hstep, List.filterMap_cons,
          extract_foldl_eq text rest acc (fun s hs => hacc s (List.mem_cons_of_mem _ hs))
            hpw'.2]
        simp [hfind]
    | some a =>
        have hany : acc.any (fun e => e.name == sk.name) = false := by
          rw [List.any_eq_false]
          intro e he
          simpa using hacc sk (List.mem_cons_self _ _) e he
        have hstep : extractStep text acc sk =
            acc ++ [⟨sk.name, sk.category, 7/10, a⟩] := by
          simp [extractStep, hfind, hany]
        have hacc' : ∀ s ∈ rest, ∀ e ∈ acc ++ [(⟨sk.name, sk.category, 7/10, a⟩ : ExtractedSkill)],
            e.name ≠ s.name := by
          intro s hs e he
          rcases List.mem_append.mp he with h | h
          · exact hacc s (List.mem_cons_of_mem _ hs) e h
          · rcases List.mem_singleton.mp h with rfl
            exact hpw'.1 s hs
        rw [List.foldl_cons, hstep, List.filterMap_cons,
          extract_foldl_eq text rest _ hacc' hpw'.2]
        simp [hfind]

/-- The extracted names are, in order, a sublist of the dictionary names. -/
lemma extractSpec_names_sublist (m : String) :
    List.Sublist ((extractSpec m).map ExtractedSkill.name)
      (SKILL_CONFIG.map SkillDef.name) := by
  unfold extractSpec
  generalize SKILL_CONFIG = cfg
  induction cfg with
  | nil => simp
  | cons sk rest ih =>
      cases hfind : (sk.aliases.map pyLower).find?
          (fun a => hasWholeWord a.data (pyLowerL m.data)) with
      | none =>
          rw [List.filterMap_cons, List.map_cons]
          simp only [hfind]
          exact ih.cons _
      | some a =>
          rw [List.filterMap_cons, List.map_cons]
          simp only [hfind, Option.map_some]
          exact ih.cons₂ _

/-- C1: for every input text, `fallback_extract_skills` returns exactly one
record per dictionary definition one of whose aliases occurs in the
lower-cased text as a whole word, in dictionary declaration order, with no two
records sharing a name, `confidence = 7/10` throughout and evidence the first
matching alias in declared alias order (this is the content of `extractSpec`);
an alias occurring only inside a longer token never matches
(`"javascripting"` yields nothing), and the empty input yields `[]`. -/
theorem fallback_extract_skills_meets_spec (m : String) :
    fallback_extract_skills m = extractSpec m ∧
    ((fallback_extract_skills m).map ExtractedSkill.name).Nodup ∧
    (∀ e ∈ fallback_extract_skills m, e.confidence = 7/10) ∧
    fallback_extract_skills "javascripting" = [] ∧
    fallback_extract_skills "" = [] := by
  have hpw : SKILL_CONFIG.Pairwise (fun a b => a.name ≠ b.name) := by decide
  have heq : fallback_extract_skills m = extractSpec m := by
    unfold fallback_extract_skills extractSpec
    rw [extract_foldl_eq (pyLowerL m.data) SKILL_CONFIG [] (by simp) hpw]
    simp
  refine ⟨heq, ?_, ?_, by decide, by decide⟩
  · rw [heq]
    exact (extractSpec_names_sublist m).nodup (by decide)
  · intro e he
    rw [heq] at he
    unfold extractSpec at he
    rcases List.mem_filterMap.mp he with ⟨sk, _, hsk⟩
    rcases Option.map_eq_some'.mp hsk with ⟨a, _, rfl⟩
    rfl

/-- Witness for C1 at a concrete input. -/
theorem fallback_extract_skills_meets_spec_witness :
    (⟨"Python", "Programming Language", 7/10, "python"⟩ : ExtractedSkill) ∈
        fallback_extract_skills "I use PYTHON and reactjs daily" ∧
    (⟨"Python", "Programming Language", 7/10, "python"⟩ : ExtractedSkill).confidence = 7/10 := by
  refine ⟨by decide, ?_⟩
  exact (fallback_extract_skills_meets_spec "I use PYTHON and reactjs daily").2.2.1
    ⟨"Python", "Programming Language", 7/10, "python"⟩ (by decide)

/-- One step of the "deduplicate while preserving order" loops
(main.py lines 131-137, rag.py lines 256-261): the accumulator holds exactly
the roles seen so far, in first-appearance order. -/
def dedupStep (acc : List String) (r : String) : List String :=
  if r ∈ acc then acc else acc ++ [r]

/-- Order-preserving deduplication keeping first occurrences. -/
def dedupKeepFirst (l : List String) : List String := l.foldl dedupStep []

lemma dedupGo_eq_append :
    ∀ (l acc : List String), l.Nodup → (∀ x ∈ l, x ∉ acc) →
      List.foldl dedupStep acc l = acc ++ l := by
  intro l
  induction l with
  | nil => simp
  | cons a t ih =>
      intro acc hnd hdisj
      have hstep : dedupStep acc a = acc ++ [a] := by
        unfold dedupStep
        rw [if_neg (hdisj a (List.mem_cons_self _ _))]
      rw [List.foldl_cons, hstep, ih (acc ++ [a]) (List.Nodup.of_cons hnd) ?_]
      · simp
      · intro x hx
        rw [List.mem_append, List.mem_singleton]
        rintro (h | rfl)
        · exact hdisj x (List.mem_cons_of_mem _ hx) h
        · exact (List.nodup_cons.mp hnd).1 hx

lemma dedupKeepFirst_eq_self (l : List String) (h : l.Nodup) :
    dedupKeepFirst l = l := by
  unfold dedupKeepFirst
  rw [dedupGo_eq_append l [] h (by simp)]
  simp

lemma mem_dedupGo :
    ∀ (l acc : List String) (x : String),
      x ∈ List.foldl dedupStep acc l ↔ x ∈ acc ∨ x ∈ l := by
  intro l
  induction l with
  | nil => simp
  | cons a t ih =>
      intro acc x
      rw [List.foldl_cons]
      by_cases hmem : a ∈ acc
      · have hstep : dedupStep acc a = acc := by
          unfold dedupStep; rw [if_pos hmem]
        rw [hstep, ih]
        constructor
        · rintro (h | h)
          · exact Or.inl h
          · exact Or.inr (List.mem_cons_of_mem _ h)
        · rintro (h | h)
          · exact Or.inl h
          · rcases List.mem_cons.mp h with rfl | h
            · exact Or.inl hmem
            · exact Or.inr h
      · have hstep : dedupStep acc a = acc ++ [a] := by
          unfold dedupStep; rw [if_neg hmem]
        rw [hstep, ih]
        simp only [List.mem_append, List.mem_singleton, List.mem_cons]
        tauto

lemma mem_dedupKeepFirst (l : List String) (x : String) :
    x ∈ dedupKeepFirst l ↔ x ∈ l := by
  unfold dedupKeepFirst
  rw [mem_dedupGo]
  simp

lemma nodup_dedupGo :
    ∀ (l acc : List String), acc.Nodup → (List.foldl dedupStep acc l).Nodup := by
  intro l
  induction l with
  | nil => intro acc hacc; simpa using hacc
  | cons a t ih =>
      intro acc hacc
      rw [List.foldl_cons]
      by_cases hmem : a ∈ acc
      · have hstep : dedupStep acc a = acc := by
          unfold dedupStep; rw [if_pos hmem]
        rw [hstep]
        exact ih acc hacc
      · have hstep : dedupStep acc a = acc ++ [a] := by
          unfold dedupStep; rw [if_neg hmem]
        rw [hstep]
        exact ih (acc ++ [a]) (by simp [List.nodup_append, hacc, hmem])

lemma nodup_dedupKeepFirst (l : List String) : (dedupKeepFirst l).Nodup :=
  nodup_dedupGo l [] List.nodup_nil

/-- The five role labels in rule-evaluation order (shared by both variants). -/
def ROLE_ORDER : List String :=
  ["Full-Stack Developer", "Backend Engineer", "DevOps / Cloud Engineer",
   "Data Engineer / Data Analyst", "LLM / RAG Engineer"]

/-- The five conditional appends of `infer_roles_from_skill_names`
(main.py lines 113-128), before deduplication. -/
def rolesRaw_main (names : List String) : List String :=
  (if "React" ∈ names ∧ ("FastAPI" ∈ names ∨ "Node.js" ∈ names ∨ "Express" ∈ names)
      then ["Full-Stack Developer"] else []) ++
  ((if ∃ s ∈ (["FastAPI", "Django", "Node.js", "Express", "REST API"] : List String),
        s ∈ names then ["Backend Engineer"] else []) ++
  ((if ∃ s ∈ (["AWS", "Azure", "GCP", "Docker", "Kubernetes", "CI/CD",
        "GitHub Actions"] : List String), s ∈ names
      then ["DevOps / Cloud Engineer"] else []) ++
  ((if ∃ s ∈ (["Pandas", "NumPy", "SQL", "PostgreSQL", "MongoDB"] : List String),
        s ∈ names then ["Data Engineer / Data Analyst"] else []) ++
  (if ∃ s ∈ (["LangChain", "ChromaDB"] : List String), s ∈ names
      then ["LLM / RAG Engineer"] else []))))

/-- Model of `infer_roles_from_skill_names` (main.py lines 110-137): apply the five
rules in order, then deduplicate preserving order. -/
def infer_roles_from_skill_names (skill_names : List String) : List String :=
  dedupKeepFirst (rolesRaw_main skill_names)

/-- The five conditional appends of the chat composer's role suggestions
(rag.py lines 238-254), before deduplication; its rule sets differ slightly
from the profile-endpoint variant. -/
def rolesRaw_composer (names : List String) : List String :=
  (if "React" ∈ names ∧ ("FastAPI" ∈ names ∨ "Node.js" ∈ names ∨ "Express" ∈ names)
      then ["Full-Stack Developer"] else []) ++
  ((if ∃ s ∈ (["FastAPI", "Django", "Node.js", "Express", "SQL",
        "REST API"] : List String), s ∈ names then ["Backend Engineer"] else []) ++
  ((if ∃ s ∈ (["AWS", "Azure", "GCP", "Docker", "Kubernetes", "CI/CD",
        "GitHub Actions"] : List String), s ∈ names
      then ["DevOps / Cloud Engineer"] else []) ++
  ((if ∃ s ∈ (["Pandas", "NumPy", "SQL", "PostgreSQL", "MongoDB",
        "Data Science"] : List String), s ∈ names
      then ["Data Engineer / Data Analyst"] else []) ++
  (if ∃ s ∈ (["LangChain", "ChromaDB", "Machine Learning"] : List String), s ∈ names
      then ["LLM / RAG Engineer"] else []))))

/-- The composer's role pipeline (rules + order-preserving dedup,
rag.py lines 238-261). -/
def composerRoles (skill_names : List String) : List String :=
  dedupKeepFirst (rolesRaw_composer skill_names)

lemma ite_singleton_sublist (c : Prop) [Decidable c] (r : String) :
    List.Sublist (if c then [r] else []) [r] := by
  split_ifs
  · exact List.Sublist.refl _
  · exact List.nil_sublist _

lemma rolesRaw_main_sublist (names : List String) :
    List.Sublist (rolesRaw_main names) ROLE_ORDER := by
  show List.Sublist (rolesRaw_main names)
    (["Full-Stack Developer"] ++ (["Backend Engineer"] ++ (["DevOps / Cloud Engineer"] ++
      (["Data Engineer / Data Analyst"] ++ ["LLM / RAG Engineer"]))))
  exact (ite_singleton_sublist _ _).append ((ite_singleton_sublist _ _).append
    ((ite_singleton_sublist _ _).append ((ite_singleton_sublist _ _).append
    (ite_singleton_sublist _ _))))

lemma rolesRaw_composer_sublist (names : List String) :
    List.Sublist (rolesRaw_composer names) ROLE_ORDER := by
  show List.Sublist (rolesRaw_composer names)
    (["Full-Stack Developer"] ++ (["Backend Engineer"] ++ (["DevOps / Cloud Engineer"] ++
      (["Data Engineer / Data Analyst"] ++ ["LLM / RAG Engineer"]))))
  exact (ite_singleton_sublist _ _).append ((ite_singleton_sublist _ _).append
    ((ite_singleton_sublist _ _).append ((ite_singleton_sublist _ _).append
    (ite_singleton_sublist _ _))))

/-- C6: for every list of skill names, both role-inference variants return a
deduplicated list of at most five roles that is, in order, a sublist of the
fixed rule-order role list (rules evaluated independently); and on
`{"React", "FastAPI"}` both return "Full-Stack Developer" then
"Backend Engineer". -/
theorem role_inference_spec (names : List String) :
    List.Sublist (infer_roles_from_skill_names names) ROLE_ORDER ∧
    (infer_roles_from_skill_names names).Nodup ∧
    (infer_roles_from_skill_names names).length ≤ 5 ∧
    List.Sublist (composerRoles names) ROLE_ORDER ∧
    (composerRoles names).Nodup ∧
    (composerRoles names).length ≤ 5 ∧
    infer_roles_from_skill_names ["React", "FastAPI"] =
      ["Full-Stack Developer", "Backend Engineer"] ∧
    composerRoles ["React", "FastAPI"] =
      ["Full-Stack Developer", "Backend Engineer"] := by
  have hm : infer_roles_from_skill_names names = rolesRaw_main names :=
    dedupKeepFirst_eq_self _ ((rolesRaw_main_sublist names).nodup (by decide))
  have hc : composerRoles names = rolesRaw_composer names :=
    dedupKeepFirst_eq_self _ ((rolesRaw_composer_sublist names).nodup (by decide))
  refine ⟨?_, ?_, ?_, ?_, ?_, ?_, by decide, by decide⟩
  · rw [hm]; exact rolesRaw_main_sublist names
  · rw [hm]; exact (rolesRaw_main_sublist names).nodup (by decide)
  · rw [hm]; exact (rolesRaw_main_sublist names).length_le
  · rw [hc]; exact rolesRaw_composer_sublist names
  · rw [hc]; exact (rolesRaw_composer_sublist names).nodup (by decide)
  · rw [hc]; exact (rolesRaw_composer_sublist names).length_le

/-- The fixed greeting set of `fallback_response` (rag.py line 219). -/
def GREETINGS : List String := ["hi", "hello", "hey", "hii", "hey there", "hola"]

/-- The fixed greeting/introduction reply (rag.py lines 221-225). -/
def greetingReply : String :=
  "Hey! \u00F0\u0178\u2018\u2039 I'm your skill assistant.\n\nTell me about your experience or paste a resume bullet, and I'll identify your key skills and suggest matching roles."

/-- The fixed "no technologies detected" guidance reply (rag.py lines 227-233). -/
def noSkillsReply : String :=
  "Thanks for sharing! I didn't catch specific technologies from that message.\n\nTry mentioning some languages (Python, JavaScript), frameworks (React, FastAPI, Django), databases (MongoDB, PostgreSQL), or cloud tools (AWS, Docker), and I'll extract skills and build your profile."

/-- The generic roles sentence when no role rule fired (rag.py lines 266-269). -/
def genericRolesPart : String :=
  "This combination of skills can map to multiple roles depending on your interests and experience."

/-- The closing follow-up question (rag.py lines 275-276). -/
def closingQuestion : String :=
  "What kind of roles are you aiming for (backend, full-stack, data, DevOps, AI/RAG)? I can help you map your skills to those roles and suggest what to learn next."

/-- The `roles_part` of the reply (rag.py lines 263-269). -/
def rolesPartOf (unique_roles : List String) : String :=
  if unique_roles = [] then genericRolesPart
  else "From this stack, some good role targets could be: " ++
    String.intercalate ", " unique_roles ++ "."

/-- Model of `fallback_response` (rag.py lines 213-277): greeting reply when there are
no skills and the trimmed lower-cased message is a known greeting; guidance
reply when there are no skills otherwise; otherwise an acknowledgement with
the comma-joined skill names, the roles part, and the closing question. -/
def fallback_response (message : String) (skills : List ExtractedSkill) : String :=
  let text := pyLower (pyStrip message)
  if skills = [] ∧ GREETINGS.any (fun g => g == text) then greetingReply
  else if skills = [] then noSkillsReply
  else
    let skill_names := skills.map ExtractedSkill.name
    let skill_list_str := String.intercalate ", " skill_names
    let roles_part := rolesPartOf (composerRoles skill_names)
    "Nice, thanks for the context!\n\n" ++
      "I can clearly see these skills in your message: " ++ skill_list_str ++ ".\n" ++
      roles_part ++ "\n\n" ++ closingQuestion

/-- C7: `fallback_response` follows exactly three branches: the fixed greeting
reply when the skill list is empty and the trimmed lower-cased message is one
of the fixed greetings; the fixed "no technologies detected" reply when the
skill list is empty otherwise (including the empty string); and otherwise a
reply built from the comma-joined skill names in extraction order, either the
comma-joined suggested roles or the generic sentence when no rule fired, and
the closing follow-up question. -/
theorem fallback_response_branches (m : String) (skills : List ExtractedSkill) :
    (skills = [] → pyLower (pyStrip m) ∈ GREETINGS →
      fallback_response m skills = greetingReply) ∧
    (skills = [] → pyLower (pyStrip m) ∉ GREETINGS →
      fallback_response m skills = noSkillsReply) ∧
    (skills ≠ [] →
      fallback_response m skills =
        "Nice, thanks for the context!\n\n" ++
          "I can clearly see these skills in your message: " ++
          String.intercalate ", " (skills.map ExtractedSkill.name) ++ ".\n" ++
          rolesPartOf (composerRoles (skills.map ExtractedSkill.name)) ++ "\n\n" ++
          closingQuestion) ∧
    fallback_response "" [] = noSkillsReply ∧
    fallback_response "hi" [] = greetingReply := by
  refine ⟨?_, ?_, ?_, by decide, by decide⟩
  · intro hsk hmem
    have hany : GREETINGS.any (fun g => g == pyLower (pyStrip m)) = true := by
      rw [List.any_eq_true]
      exact ⟨_, hmem, by simp⟩
    unfold fallback_response
    rw [if_pos ⟨hsk, hany⟩]
  · intro hsk hmem
    have hany : GREETINGS.any (fun g => g == pyLower (pyStrip m)) = false := by
      rw [List.any_eq_false]
      intro g hg
      simp only [beq_iff_eq]
      rintro rfl
      exact hmem hg
    unfold fallback_response
    rw [if_neg (by simp [hany]), if_pos hsk]
  · intro hsk
    unfold fallback_response
    rw [if_neg (by simp [hsk]), if_neg hsk]

/-- Witness for C7 at concrete inputs. -/
theorem fallback_response_branches_witness :
    fallback_response "hi" [] = greetingReply ∧
    fallback_response "" [] = noSkillsReply := by
  exact ⟨(fallback_response_branches "hi" []).1 rfl (by decide),
    (fallback_response_branches "" []).2.1 rfl (by decide)⟩

/-- Truthiness of `os.getenv("OPENAI_API_KEY")`: set and non-empty. -/
def apiKeyTruthy : Option String → Bool
  | none => false
  | some s => s != ""

/-- The deterministic path of `analyze_message` (rag.py lines 485-488):
extract skills with the local engine, compose the reply, return both. -/
def analyze_message (message : String) : String × List ExtractedSkill :=
  let skills := fallback_extract_skills message
  (fallback_response message skills, skills)

/-- Model of `analyze_message` (rag.py lines 467-488) with its enhanced path made
explicit: `llm` stands for `llm_analyze_with_rag`, a collaborator that may
fail; when `use_llm` is set and the API key is truthy its successful result is
returned and any failure falls back to the deterministic path; otherwise the
deterministic path runs directly. -/
def analyze_message_full (llm : String → Except String (String × List ExtractedSkill))
    (use_llm : Bool) (api_key : Option String) (message : String) :
    String × List ExtractedSkill :=
  if use_llm && apiKeyTruthy api_key then
    match llm message with
    | .ok r => r
    | .error _ => analyze_message message
  else analyze_message message

/-- C5: with the enhanced LLM path disabled or unconfigured, the analyzer is
total and deterministic: for every string input (including the empty string,
and whatever the collaborator would do) it returns the (reply, skills) pair of
the local extractor and composer, never an error. -/
theorem analyze_message_total
    (llm : String → Except String (String × List ExtractedSkill))
    (use_llm : Bool) (api_key : Option String) (m : String)
    (h : use_llm = false ∨ apiKeyTruthy api_key = false) :
    analyze_message_full llm use_llm api_key m =
      (fallback_response m (fallback_extract_skills m), fallback_extract_skills m) ∧
    analyze_message m =
      (fallback_response m (fallback_extract_skills m), fallback_extract_skills m) := by
  constructor
  · unfold analyze_message_full
    rcases h with h | h
    · rw [h]
      simp [analyze_message]
    · rw [h]
      simp [analyze_message]
  · rfl

/-- Witness for C5 at the empty string with the LLM path disabled. -/
theorem analyze_message_total_witness :
    analyze_message_full (fun _ => Except.error "unavailable") false none "" =
      (noSkillsReply, []) := by
  have h := (analyze_message_total (fun _ => Except.error "unavailable")
    false none "" (Or.inl rfl)).1
  rw [h]
  decide


/-- The pydantic `Skill` model of main.py (lines 34-38), with its fields
already coerced to strings/number. -/
structure Skill where
  name : String
  category : String
  confidence : ℚ
  evidence : String
deriving DecidableEq, Repr

/-- Model of `MatchResult` (main.py lines 84-90). -/
structure MatchResult where
  match_score : ℚ
  candidate_skills : List Skill
  jd_skills : List Skill
  matched_skills : List String
  missing_skills : List String
  extra_skills : List String
deriving DecidableEq, Repr

/-- Normalization applied to each raw skill in `match_skills`
(main.py lines 287-307): strip the string fields. -/
def toSkill (s : ExtractedSkill) : Skill :=
  ⟨pyStrip s.name, pyStrip s.category, s.confidence, pyStrip s.evidence⟩

/-- One analyzer run inside `match_skills`: analyze the text, keep only the
skill list, drop entries with falsy (empty) names, normalize
(main.py lines 284-307). -/
def analyzedSkills (text : String) : List Skill :=
  ((analyze_message text).2.filter (fun s => s.name != "")).map toSkill

/-- The lower-cased name set of the skills of one analyzed text
(main.py lines 309-310), as a deduplicated list in first-appearance order. -/
def candSet (text : String) : List String :=
  dedupKeepFirst ((analyzedSkills text).map (fun s => pyLower s.name))

/-- Python string comparison: code-point lexicographic order on the
character sequences. -/
def strLe (a b : String) : Prop := a.data ≤ b.data

instance : DecidableRel strLe :=
  fun a b => inferInstanceAs (Decidable (a.data ≤ b.data))

instance : IsTotal String strLe := ⟨fun a b => le_total a.data b.data⟩

instance : IsTrans String strLe := ⟨fun _ _ _ h h2 => le_trans h h2⟩

/-- Python `sorted` on strings (code-point lexicographic; a stable insertion
sort computes the same list as any sort on a set of distinct keys). -/
def sortStr (l : List String) : List String := List.insertionSort strLe l

/-- Model of `matched = sorted(cand_set & jd_set)` (main.py line 312). -/
def matchedOf (c j : String) : List String :=
  sortStr ((candSet c).filter (fun s => decide (s ∈ candSet j)))

/-- Model of `missing = sorted(jd_set - cand_set)` (main.py line 313). -/
def missingOf (c j : String) : List String :=
  sortStr ((candSet j).filter (fun s => decide (s ∉ candSet c)))

/-- Model of `extra = sorted(cand_set - jd_set)` (main.py line 314). -/
def extraOf (c j : String) : List String :=
  sortStr ((candSet c).filter (fun s => decide (s ∉ candSet j)))

/-- Model of `match_score` (main.py lines 316-318): `len(matched) / len(jd_set)` when
the job set is non-empty, else the 0.0 default. -/
def matchScoreOf (c j : String) : ℚ :=
  if candSet j = [] then 0
  else ((matchedOf c j).length : ℚ) / ((candSet j).length : ℚ)

/-- Model of `match_skills` (main.py lines 275-327): reject blank inputs, analyze both
texts independently, and assemble the `MatchResult`. -/
def match_skills (candidate_text job_description : String) : Except String MatchResult :=
  if pyStrip candidate_text = "" ∨ pyStrip job_description = "" then
    .error "Both candidate_text and job_description are required."
  else
    .ok ⟨matchScoreOf candidate_text job_description,
      analyzedSkills candidate_text, analyzedSkills job_description,
      matchedOf candidate_text job_description,
      missingOf candidate_text job_description,
      extraOf candidate_text job_description⟩

lemma sortStr_mem (l : List String) (x : String) : x ∈ sortStr l ↔ x ∈ l :=
  (List.perm_insertionSort _ l).mem_iff

lemma sortStr_sorted (l : List String) : (sortStr l).Sorted strLe :=
  List.sorted_insertionSort _ l

lemma sortStr_nodup (l : List String) (h : l.Nodup) : (sortStr l).Nodup :=
  ((List.perm_insertionSort _ l).nodup_iff).mpr h

/-- C3: for non-blank inputs, `match_skills` succeeds with `matched` the
intersection of the lower-cased name sets of the two independent analyses
(entries with empty names dropped), `missing` the job-side difference,
`extra` the candidate-side difference, all sorted and duplicate-free, and
score `|matched| / |jdNames|` with a zero default for an empty job set;
candidate "Python SQL" against job "Python Java SQL" gives matched
`["python", "sql"]`, missing `["java"]`, extra `[]` and score 2/3. -/
theorem match_skills_spec (c j : String) (hc : pyStrip c ≠ "") (hj : pyStrip j ≠ "") :
    match_skills c j = .ok ⟨matchScoreOf c j, analyzedSkills c, analyzedSkills j,
      matchedOf c j, missingOf c j, extraOf c j⟩ ∧
    (∀ x, x ∈ matchedOf c j ↔ x ∈ candSet c ∧ x ∈ candSet j) ∧
    (∀ x, x ∈ missingOf c j ↔ x ∈ candSet j ∧ x ∉ candSet c) ∧
    (∀ x, x ∈ extraOf c j ↔ x ∈ candSet c ∧ x ∉ candSet j) ∧
    (matchedOf c j).Sorted strLe ∧ (matchedOf c j).Nodup ∧
    (missingOf c j).Sorted strLe ∧ (missingOf c j).Nodup ∧
    (extraOf c j).Sorted strLe ∧ (extraOf c j).Nodup ∧
    (candSet j ≠ [] →
      matchScoreOf c j = ((matchedOf c j).length : ℚ) / ((candSet j).length : ℚ)) ∧
    (candSet j = [] → matchScoreOf c j = 0) ∧
    (matchedOf "Python SQL" "Python Java SQL" = ["python", "sql"] ∧
      missingOf "Python SQL" "Python Java SQL" = ["java"] ∧
      extraOf "Python SQL" "Python Java SQL" = [] ∧
      matchScoreOf "Python SQL" "Python Java SQL" = 2/3) := by
  refine ⟨?_, ?_, ?_, ?_, sortStr_sorted _, sortStr_nodup _ ((nodup_dedupKeepFirst _).filter _),
    sortStr_sorted _, sortStr_nodup _ ((nodup_dedupKeepFirst _).filter _),
    sortStr_sorted _, sortStr_nodup _ ((nodup_dedupKeepFirst _).filter _),
    ?_, ?_, by decide, by decide, by decide, by decide⟩
  · unfold match_skills
    rw [if_neg (by tauto)]
  · intro x
    unfold matchedOf
    rw [sortStr_mem, List.mem_filter]
    simp
  · intro x
    unfold missingOf
    rw [sortStr_mem, List.mem_filter]
    simp
  · intro x
    unfold extraOf
    rw [sortStr_mem, List.mem_filter]
    simp
  · intro hne
    unfold matchScoreOf
    rw [if_neg hne]
  · intro hne
    unfold matchScoreOf
    rw [if_pos hne]

/-- Witness for C3 at the concrete inputs of the claim. -/
theorem match_skills_spec_witness :
    match_skills "Python SQL" "Python Java SQL" =
      .ok ⟨matchScoreOf "Python SQL" "Python Java SQL",
        analyzedSkills "Python SQL", analyzedSkills "Python Java SQL",
        matchedOf "Python SQL" "Python Java SQL",
        missingOf "Python SQL" "Python Java SQL",
        extraOf "Python SQL" "Python Java SQL"⟩ :=
  (match_skills_spec "Python SQL" "Python Java SQL" (by decide) (by decide)).1

/-- C9: `match_skills` fails exactly when one of the two inputs strips to the
empty string; on non-blank inputs it succeeds, and an empty job-description
skill set gives score 0 with no division error. -/
theorem match_skills_validation (c j : String) :
    ((∃ e, match_skills c j = .error e) ↔ (pyStrip c = "" ∨ pyStrip j = "")) ∧
    (pyStrip c ≠ "" → pyStrip j ≠ "" →
      (∃ r, match_skills c j = .ok r) ∧
      (candSet j = [] → matchScoreOf c j = 0)) := by
  constructor
  · unfold match_skills
    split_ifs with h
    · simpa using h
    · simpa using h
  · intro hc hj
    constructor
    · unfold match_skills
      rw [if_neg (by tauto)]
      exact ⟨_, rfl⟩
    · intro hempty
      unfold matchScoreOf
      rw [if_pos hempty]

/-- Witness for C9: a job description from which no skills are extracted. -/
theorem match_skills_validation_witness :
    (∃ r, match_skills "python" "hello world" = .ok r) ∧
    matchScoreOf "python" "hello world" = 0 := by
  have h := (match_skills_validation "python" "hello world").2 (by decide) (by decide)
  exact ⟨h.1, h.2 (by decide)⟩

/-- A persisted skill record inside `skills_json`: a JSON object whose fields
may be absent (missing key ⇒ `none`); values are accessed with `.get(key,
default)` in the code. -/
structure StoredSkill where
  name : Option String
  category : Option String
  confidence : Option ℚ
  evidence : Option String
deriving DecidableEq, Repr

/-- A persisted `ConversationTurn` (models.py lines 8-16) as read back for one
session; the code guards with `t.skills_json or []`, so the stored list is
modelled as optional. -/
structure ConversationTurn where
  user_message : String
  bot_response : String
  skills_json : Option (List StoredSkill)
deriving DecidableEq, Repr

/-- Model of `name = str(s.get("name", "")).strip(); if not name: continue`
(main.py lines 234-236): the aggregation key of a stored record, or `none`
when the record is skipped. -/
def keyOf (s : StoredSkill) : Option String :=
  if pyStrip (s.name.getD "") = "" then none else some (pyStrip (s.name.getD ""))

/-- Model of `category = str(s.get("category", "")).strip() or "Skill"`
(main.py line 237). -/
def catOf (s : StoredSkill) : String :=
  if pyStrip (s.category.getD "") = "" then "Skill"
  else pyStrip (s.category.getD "")

/-- Model of `conf = float(s.get("confidence", 0.0))` (main.py line 238). -/
def confOf (s : StoredSkill) : ℚ := s.confidence.getD 0

/-- One value of the `skill_stats` dict (main.py lines 239-247). -/
structure Stat where
  name : String
  category : String
  count : ℕ
  sum_conf : ℚ
deriving DecidableEq, Repr

/-- One iteration of the aggregation loop (main.py lines 233-247): skip
blank-named records, insert a zero entry on first sight of a name, then bump
its count and confidence sum. The insertion-ordered dict is an association
list with pairwise-distinct names, so updating every entry of that name
updates exactly the dict entry. -/
def updateStat (acc : List Stat) (s : StoredSkill) : List Stat :=
  match keyOf s with
  | none => acc
  | some n =>
      let acc1 : List Stat := match acc.any (fun st => st.name == n) with
        | true => acc
        | false => acc ++ [⟨n, catOf s, 0, 0⟩]
      acc1.map (fun st => if st.name == n
        then ⟨st.name, st.category, st.count + 1, st.sum_conf + confOf s⟩ else st)

/-- All stored skill records of a session, in turn order then list order
(the two nested loops of main.py lines 231-233). -/
def allEntries (turns : List ConversationTurn) : List StoredSkill :=
  turns.flatMap (fun t => t.skills_json.getD [])

/-- The `skill_stats` dict after the loop (main.py lines 229-247). -/
def skillStatsOf (turns : List ConversationTurn) : List Stat :=
  (allEntries turns).foldl updateStat []

/-- Model of `SkillCount` (main.py lines 62-66). -/
structure SkillCount where
  name : String
  category : String
  count : ℕ
  avg_confidence : ℚ
deriving DecidableEq, Repr

/-- Model of `avg_conf = info["sum_conf"] / max(info["count"], 1)`
(main.py lines 249-259). -/
def statToCount (st : Stat) : SkillCount :=
  ⟨st.name, st.category, st.count, st.sum_conf / ((max st.count 1 : ℕ) : ℚ)⟩

/-- The unsorted `skill_counts` list (main.py lines 249-259). -/
def skillCountsOf (turns : List ConversationTurn) : List SkillCount :=
  (skillStatsOf turns).map statToCount

/-- The ordering of `skill_counts.sort(key=lambda s: (s.count,
s.avg_confidence), reverse=True)` (main.py line 262): descending
lexicographically on (count, averageConfidence). -/
def profOrd (a b : SkillCount) : Prop :=
  b.count < a.count ∨ (b.count = a.count ∧ b.avg_confidence ≤ a.avg_confidence)

instance : DecidableRel profOrd := fun _ _ =>
  inferInstanceAs (Decidable (_ ∨ _))

instance : IsTotal SkillCount profOrd := by
  constructor
  intro a b
  rcases Nat.lt_trichotomy a.count b.count with h | h | h
  · exact Or.inr (Or.inl h)
  · rcases le_total a.avg_confidence b.avg_confidence with h2 | h2
    · exact Or.inr (Or.inr ⟨h, h2⟩)
    · exact Or.inl (Or.inr ⟨h.symm, h2⟩)
  · exact Or.inl (Or.inl h)

instance : IsTrans SkillCount profOrd := by
  constructor
  intro a b c hab hbc
  rcases hab with h1 | ⟨h1, h1'⟩
  · rcases hbc with h2 | ⟨h2, h2'⟩
    · exact Or.inl (lt_trans h2 h1)
    · exact Or.inl (by omega)
  · rcases hbc with h2 | ⟨h2, h2'⟩
    · exact Or.inl (by omega)
    · exact Or.inr ⟨by omega, le_trans h2' h1'⟩

/-- The sorted `skill_counts` list (main.py line 262); Python's `list.sort`
is stable, as is insertion sort. -/
def sortedCountsOf (turns : List ConversationTurn) : List SkillCount :=
  List.insertionSort profOrd (skillCountsOf turns)

/-- Model of `ProfileResponse` (main.py lines 69-74). -/
structure ProfileResponse where
  session_id : String
  total_turns : ℕ
  total_skills : ℕ
  skills : List SkillCount
  suggested_roles : List String
deriving DecidableEq, Repr

/-- The successful profile aggregation (main.py lines 249-272): the list is
sorted in place before roles and the response are built from it. -/
def profileOf (session_id : String) (turns : List ConversationTurn) : ProfileResponse :=
  ⟨session_id, turns.length, (skillCountsOf turns).length, sortedCountsOf turns,
    infer_roles_from_skill_names ((sortedCountsOf turns).map SkillCount.name)⟩

/-- Model of `get_profile` (main.py lines 216-272): 404 when the session has no
turns, otherwise the aggregated profile. -/
def get_profile (session_id : String) (turns : List ConversationTurn) :
    Except String ProfileResponse :=
  if turns = [] then .error "Session not found"
  else .ok (profileOf session_id turns)

/-- Spec-side measure: number of occurrences of aggregation key `n` among the
stored records. -/
def occCount (es : List StoredSkill) (n : String) : ℕ :=
  es.countP (fun s => keyOf s == some n)

/-- Spec-side measure: sum of the confidences of the records with key `n`. -/
def occConfSum (es : List StoredSkill) (n : String) : ℚ :=
  ((es.filter (fun s => keyOf s == some n)).map confOf).sum

/-- Spec-side measure: category of the first-seen record with key `n`. -/
def firstSeenCat (es : List StoredSkill) (n : String) : String :=
  ((es.find? (fun s => keyOf s == some n)).map catOf).getD "Skill"

/-- The aggregation keys in first-appearance order. -/
def statKeys (es : List StoredSkill) : List String :=
  dedupKeepFirst (es.filterMap keyOf)

/-- The stat the specification prescribes for one key. -/
def specStatOf (es : List StoredSkill) (n : String) : Stat :=
  ⟨n, firstSeenCat es n, occCount es n, occConfSum es n⟩

/-- The specification's description of the aggregation (spec §4.5 / claim
C2): one stat per key, in first-appearance order, with occurrence count,
confidence sum, and first-seen category. -/
def specStats (es : List StoredSkill) : List Stat :=
  (statKeys es).map (specStatOf es)


lemma find?_app {α : Type} (p : α → Bool) (l₁ l₂ : List α) :
    (l₁ ++ l₂).find? p =
      match l₁.find? p with
      | some x => some x
      | none => l₂.find? p := by
  induction l₁ with
  | nil => simp
  | cons a t ih =>
      by_cases hp : p a
      · rw [List.cons_append, List.find?_cons_of_pos _ hp, List.find?_cons_of_pos _ hp]
      · rw [List.cons_append, List.find?_cons_of_neg _ hp, List.find?_cons_of_neg _ hp, ih]

lemma occCount_append (p : List StoredSkill) (e : StoredSkill) (n : String) :
    occCount (p ++ [e]) n =
      occCount p n + (if keyOf e == some n then 1 else 0) := by
  unfold occCount
  rw [List.countP_append]
  simp [List.countP_cons]

lemma occConfSum_append (p : List StoredSkill) (e : StoredSkill) (n : String) :
    occConfSum (p ++ [e]) n =
      occConfSum p n + (if keyOf e == some n then confOf e else 0) := by
  unfold occConfSum
  rw [List.filter_append, List.map_append, List.sum_append]
  congr 1
  by_cases h : keyOf e == some n
  · simp [List.filter_cons, h]
  · simp [List.filter_cons, h]

lemma find?_isSome_of_mem (es : List StoredSkill) (n : String)
    (h : ∃ s ∈ es, keyOf s = some n) :
    (es.find? (fun s => keyOf s == some n)).isSome := by
  cases hf : es.find? (fun s => keyOf s == some n) with
  | some s => rfl
  | none =>
      rcases h with ⟨s, hs, hk⟩
      have := List.find?_eq_none.mp hf s hs
      simp [hk] at this

lemma firstSeenCat_append_of_found (p : List StoredSkill) (e : StoredSkill) (n : String)
    (h : (p.find? (fun s => keyOf s == some n)).isSome) :
    firstSeenCat (p ++ [e]) n = firstSeenCat p n := by
  unfold firstSeenCat
  rw [find?_app]
  rcases Option.isSome_iff_exists.mp h with ⟨x, hx⟩
  rw [hx]

lemma mem_statKeys (es : List StoredSkill) (n : String) :
    n ∈ statKeys es ↔ ∃ s ∈ es, keyOf s = some n := by
  unfold statKeys
  rw [mem_dedupKeepFirst, List.mem_filterMap]

lemma statKeys_append (p : List StoredSkill) (e : StoredSkill) :
    statKeys (p ++ [e]) =
      match keyOf e with
      | none => statKeys p
      | some n => if n ∈ statKeys p then statKeys p else statKeys p ++ [n] := by
  unfold statKeys dedupKeepFirst
  rw [List.filterMap_append]
  cases hk : keyOf e with
  | none => simp [List.filterMap_cons, hk]
  | some n =>
      simp only [List.filterMap_cons, hk, List.filterMap_nil]
      rw [List.foldl_append]
      rfl

lemma specStats_names (p : List StoredSkill) :
    (specStats p).map Stat.name = statKeys p := by
  unfold specStats
  rw [List.map_map]
  have h : (Stat.name ∘ specStatOf p) = id := by
    funext n
    rfl
  rw [h, List.map_id]

/-- A record that does not carry key `n` leaves the stat of `n` unchanged. -/
lemma specStatOf_append_untouched (p : List StoredSkill) (e : StoredSkill) (n : String)
    (hpred : (keyOf e == some n) = false)
    (hfound : (p.find? (fun s => keyOf s == some n)).isSome) :
    specStatOf (p ++ [e]) n = specStatOf p n := by
  unfold specStatOf
  rw [firstSeenCat_append_of_found p e n hfound, occCount_append, occConfSum_append, hpred]
  simp

/-- A record carrying an already-seen key `n` bumps count and sum. -/
lemma specStatOf_append_bump (p : List StoredSkill) (e : StoredSkill) (n : String)
    (hbeq : (keyOf e == some n) = true)
    (hfound : (p.find? (fun s => keyOf s == some n)).isSome) :
    specStatOf (p ++ [e]) n =
      ⟨n, firstSeenCat p n, occCount p n + 1, occConfSum p n + confOf e⟩ := by
  unfold specStatOf
  rw [firstSeenCat_append_of_found p e n hfound, occCount_append, occConfSum_append, hbeq]
  simp

/-- A record carrying a fresh key `n` creates the stat of `n`. -/
lemma specStatOf_append_new (p : List StoredSkill) (e : StoredSkill) (n : String)
    (hbeq : (keyOf e == some n) = true)
    (habsent : ∀ s ∈ p, ¬ keyOf s = some n) :
    specStatOf (p ++ [e]) n = ⟨n, catOf e, 1, confOf e⟩ := by
  have hnone : p.find? (fun s => keyOf s == some n) = none := by
    rw [List.find?_eq_none]
    intro s hs
    simpa using habsent s hs
  have hzero : occCount p n = 0 := by
    unfold occCount
    rw [List.countP_eq_zero]
    intro s hs
    simpa using habsent s hs
  have hzero2 : occConfSum p n = 0 := by
    unfold occConfSum
    have hnil : p.filter (fun s => keyOf s == some n) = [] := by
      rw [List.filter_eq_nil_iff]
      intro s hs
      simpa using habsent s hs
    rw [hnil]
    rfl
  have hfe : List.find? (fun s => keyOf s == some n) [e] = some e := by
    simp [List.find?, hbeq]
  have hcat : firstSeenCat (p ++ [e]) n = catOf e := by
    unfold firstSeenCat
    rw [find?_app, hnone]
    show (Option.map catOf (List.find? (fun s => keyOf s == some n) [e])).getD "Skill" =
      catOf e
    rw [hfe]
    rfl
  unfold specStatOf
  rw [occCount_append, occConfSum_append, hbeq, hzero, hzero2, hcat]
  simp

/-- Key step: one aggregation-loop iteration applied to the spec's stat list
yields the spec's stat list of the extended record sequence. -/
lemma updateStat_specStats (p : List StoredSkill) (e : StoredSkill) :
    updateStat (specStats p) e = specStats (p ++ [e]) := by
  cases hk : keyOf e with
  | none =>
      have hskip : updateStat (specStats p) e = specStats p := by
        unfold updateStat
        rw [hk]
      rw [hskip]
      unfold specStats
      rw [statKeys_append p e, hk]
      symm
      apply List.map_congr_left
      intro m hm
      exact specStatOf_append_untouched p e m (by simp [hk])
        (find?_isSome_of_mem p m ((mem_statKeys p m).mp hm))
  | some n0 =>
      have hbeq : (keyOf e == some n0) = true := by simp [hk]
      by_cases hmem : n0 ∈ statKeys p
      · -- the key is already present: its dict entry is bumped in place
        have hany : (specStats p).any (fun st => st.name == n0) = true := by
          rw [List.any_eq_true]
          rcases List.mem_map.mp (by rw [specStats_names]; exact hmem :
            n0 ∈ (specStats p).map Stat.name) with ⟨st, hst, hname⟩
          exact ⟨st, hst, by simp [hname]⟩
        have hstep : updateStat (specStats p) e =
            (specStats p).map (fun st => if st.name == n0
              then ⟨st.name, st.category, st.count + 1, st.sum_conf + confOf e⟩
              else st) := by
          unfold updateStat
          simp only [hk, hany]
        rw [hstep]
        unfold specStats
        rw [statKeys_append p e, hk]
        simp only [hmem, if_true]
        rw [List.map_map]
        apply List.map_congr_left
        intro m hm
        have hfound := find?_isSome_of_mem p m ((mem_statKeys p m).mp hm)
        by_cases hmn : m = n0
        · subst hmn
          rw [specStatOf_append_bump p e m hbeq hfound]
          simp [specStatOf]
        · have hpred : (keyOf e == some m) = false := by
            rw [hk]
            exact beq_eq_false_iff_ne.mpr
              (fun h => hmn (Option.some.inj h).symm)
          rw [specStatOf_append_untouched p e m hpred hfound]
          simp [specStatOf, hmn]
      · -- first sight of the key: a fresh zero entry is appended and bumped
        have habsent : ∀ s ∈ p, ¬ keyOf s = some n0 := by
          intro s hs hkey
          exact hmem ((mem_statKeys p n0).mpr ⟨s, hs, hkey⟩)
        have hany : (specStats p).any (fun st => st.name == n0) = false := by
          rw [List.any_eq_false]
          intro st hst
          simp only [beq_iff_eq]
          intro hname
          exact hmem (by rw [← specStats_names]; exact hname ▸ List.mem_map_of_mem _ hst)
        have hstep : updateStat (specStats p) e =
            ((specStats p) ++ ([⟨n0, catOf e, 0, 0⟩] : List Stat)).map
              (fun st => if st.name == n0
                then ⟨st.name, st.category, st.count + 1, st.sum_conf + confOf e⟩
                else st) := by
          unfold updateStat
          simp only [hk, hany]
        rw [hstep, List.map_append]
        unfold specStats
        rw [statKeys_append p e, hk]
        simp only [hmem, if_false]
        rw [List.map_append, List.map_map]
        congr 1
        · apply List.map_congr_left
          intro m hm
          have hmn : m ≠ n0 := fun h => hmem (h ▸ hm)
          have hpred : (keyOf e == some m) = false := by
            rw [hk]
            exact beq_eq_false_iff_ne.mpr
              (fun h => hmn (Option.some.inj h).symm)
          have hfound := find?_isSome_of_mem p m ((mem_statKeys p m).mp hm)
          rw [specStatOf_append_untouched p e m hpred hfound]
          simp [specStatOf, hmn]
        · simp only [List.map_cons, List.map_nil]
          rw [specStatOf_append_new p e n0 hbeq habsent]
          simp

/-- The aggregation fold computes the spec's stat list. -/
lemma foldl_updateStat_spec :
    ∀ (es p : List StoredSkill),
      es.foldl updateStat (specStats p) = specStats (p ++ es)
  | [], p => by simp
  | e :: es, p => by
      rw [List.foldl_cons, updateStat_specStats p e, foldl_updateStat_spec es (p ++ [e])]
      simp

lemma skillStatsOf_eq_specStats (turns : List ConversationTurn) :
    skillStatsOf turns = specStats (allEntries turns) := by
  unfold skillStatsOf
  have h0 : ([] : List Stat) = specStats [] := rfl
  rw [h0, foldl_updateStat_spec (allEntries turns) [], List.nil_append]

lemma skillCounts_names (turns : List ConversationTurn) :
    (skillCountsOf turns).map SkillCount.name = statKeys (allEntries turns) := by
  unfold skillCountsOf
  rw [skillStatsOf_eq_specStats]
  unfold specStats
  rw [List.map_map, List.map_map]
  have h : ((SkillCount.name ∘ statToCount) ∘ specStatOf (allEntries turns)) = id := by
    funext n
    rfl
  rw [h, List.map_id]

lemma mem_sortedCounts (turns : List ConversationTurn) (sc : SkillCount) :
    sc ∈ sortedCountsOf turns ↔
      ∃ n ∈ statKeys (allEntries turns),
        statToCount (specStatOf (allEntries turns) n) = sc := by
  unfold sortedCountsOf
  rw [(List.perm_insertionSort profOrd _).mem_iff]
  unfold skillCountsOf
  rw [skillStatsOf_eq_specStats]
  unfold specStats
  rw [List.map_map, List.mem_map]
  constructor
  · rintro ⟨n, hn, h⟩
    exact ⟨n, hn, h⟩
  · rintro ⟨n, hn, h⟩
    exact ⟨n, hn, h⟩

lemma keyOf_some_ne_empty (s : StoredSkill) (n : String) (h : keyOf s = some n) :
    n ≠ "" := by
  unfold keyOf at h
  split_ifs at h with hc
  rcases Option.some.inj h with rfl
  exact hc

lemma catOf_ne_empty (s : StoredSkill) : catOf s ≠ "" := by
  unfold catOf
  split_ifs with hc
  · decide
  · exact hc

lemma firstSeenCat_ne_empty (es : List StoredSkill) (n : String) :
    firstSeenCat es n ≠ "" := by
  unfold firstSeenCat
  cases es.find? (fun s => keyOf s == some n) with
  | none => decide
  | some s => exact catOf_ne_empty s

lemma occCount_pos_of_mem_statKeys (es : List StoredSkill) (n : String)
    (hn : n ∈ statKeys es) : 1 ≤ occCount es n := by
  rcases (mem_statKeys es n).mp hn with ⟨s, hs, hks⟩
  unfold occCount
  rw [Nat.succ_le_iff]
  rw [List.countP_pos_iff]
  exact ⟨s, hs, by simp [hks]⟩

/-- The turn of the aggregation test case, carrying skill "SQL" with
confidence 0.7. -/
def sqlTurn : ConversationTurn :=
  ⟨"I know SQL", "reply",
    some [⟨some "SQL", some "Database / Query", some (7/10), some "sql"⟩]⟩

/-- C2: for every non-empty turn list, the profile skill list holds exactly
one entry per aggregation key (case-sensitively), whose count is the number of
occurrences of that name across all turns (at least 1), whose average
confidence is the confidence sum divided by that count, and whose category is
that of the first occurrence; the list is sorted by count descending then
average confidence descending; a session of two turns each containing "SQL"
at 0.7 aggregates to count 2 and average 0.7. -/
theorem profile_aggregation_spec (turns : List ConversationTurn) (_hne : turns ≠ []) :
    (∀ sc ∈ sortedCountsOf turns,
      1 ≤ sc.count ∧
      sc.count = occCount (allEntries turns) sc.name ∧
      sc.avg_confidence = occConfSum (allEntries turns) sc.name / (sc.count : ℚ) ∧
      sc.category = firstSeenCat (allEntries turns) sc.name) ∧
    ((sortedCountsOf turns).map SkillCount.name).Nodup ∧
    (∀ n : String, (∃ sc ∈ sortedCountsOf turns, sc.name = n) ↔
      ∃ s ∈ allEntries turns, keyOf s = some n) ∧
    List.Sorted profOrd (sortedCountsOf turns) ∧
    sortedCountsOf [sqlTurn, sqlTurn] =
      [⟨"SQL", "Database / Query", 2, 7/10⟩] := by
  have hperm : List.Perm ((sortedCountsOf turns).map SkillCount.name)
      ((skillCountsOf turns).map SkillCount.name) :=
    (List.perm_insertionSort profOrd (skillCountsOf turns)).map SkillCount.name
  refine ⟨?_, ?_, ?_, List.sorted_insertionSort profOrd _, by decide⟩
  · intro sc hsc
    rcases (mem_sortedCounts turns sc).mp hsc with ⟨n, hn, rfl⟩
    have h1 := occCount_pos_of_mem_statKeys (allEntries turns) n hn
    refine ⟨h1, rfl, ?_, rfl⟩
    show occConfSum (allEntries turns) n / ((max (occCount (allEntries turns) n) 1 : ℕ) : ℚ) =
      occConfSum (allEntries turns) n / ((occCount (allEntries turns) n : ℕ) : ℚ)
    rw [max_eq_left h1]
  · rw [hperm.nodup_iff, skillCounts_names]
    exact nodup_dedupKeepFirst _
  · intro n
    constructor
    · rintro ⟨sc, hsc, rfl⟩
      rcases (mem_sortedCounts turns sc).mp hsc with ⟨m, hm, rfl⟩
      exact (mem_statKeys _ _).mp hm
    · intro h
      have hn : n ∈ statKeys (allEntries turns) := (mem_statKeys _ _).mpr h
      refine ⟨statToCount (specStatOf (allEntries turns) n), ?_, rfl⟩
      exact (mem_sortedCounts turns _).mpr ⟨n, hn, rfl⟩

/-- Witness for C2 at the session of the claim's example. -/
theorem profile_aggregation_spec_witness :
    sortedCountsOf [sqlTurn, sqlTurn] =
      [⟨"SQL", "Database / Query", 2, 7/10⟩] :=
  (profile_aggregation_spec [sqlTurn, sqlTurn] (List.cons_ne_nil _ _)).2.2.2.2

/-- C8: `get_profile` reports "not found" exactly when the turn list is
empty, and returns the aggregated profile for every non-empty turn list. -/
theorem get_profile_not_found (sid : String) (turns : List ConversationTurn) :
    ((∃ e, get_profile sid turns = .error e) ↔ turns = []) ∧
    (turns ≠ [] → get_profile sid turns = .ok (profileOf sid turns)) := by
  unfold get_profile
  constructor
  · split_ifs with h
    · simp [h]
    · simp [h]
  · intro h
    rw [if_neg h]

/-- Witness for C8 at a one-turn session. -/
theorem get_profile_not_found_witness :
    get_profile "s" [sqlTurn] = .ok (profileOf "s" [sqlTurn]) :=
  (get_profile_not_found "s" [sqlTurn]).2 (List.cons_ne_nil _ _)

/-- The same turns with every blank-named stored record removed. -/
def dropBlankEntries (turns : List ConversationTurn) : List ConversationTurn :=
  turns.map (fun t => ⟨t.user_message, t.bot_response,
    some ((t.skills_json.getD []).filter (fun s => (keyOf s).isSome))⟩)

lemma allEntries_dropBlank (turns : List ConversationTurn) :
    allEntries (dropBlankEntries turns) =
      (allEntries turns).filter (fun s => (keyOf s).isSome) := by
  unfold allEntries dropBlankEntries
  induction turns with
  | nil => rfl
  | cons t ts ih => simp [List.flatMap_cons, List.filter_append, ih]

lemma find?_cons_eq {α : Type} (p : α → Bool) (a : α) (l : List α) :
    List.find? p (a :: l) = if p a then some a else List.find? p l := by
  by_cases h : p a
  · rw [List.find?_cons_of_pos _ h, if_pos h]
  · rw [List.find?_cons_of_neg _ h, if_neg (by simpa using h)]

lemma filter_key_of_filter_isSome (es : List StoredSkill) (n : String) :
    (es.filter (fun s => (keyOf s).isSome)).filter (fun s => keyOf s == some n) =
      es.filter (fun s => keyOf s == some n) := by
  induction es with
  | nil => rfl
  | cons s t ih =>
      cases hk : keyOf s with
      | none => simp [List.filter_cons, hk, ih]
      | some m => simp [List.filter_cons, hk, ih]

lemma find?_key_of_filter_isSome (es : List StoredSkill) (n : String) :
    (es.filter (fun s => (keyOf s).isSome)).find? (fun s => keyOf s == some n) =
      es.find? (fun s => keyOf s == some n) := by
  induction es with
  | nil => rfl
  | cons s t ih =>
      cases hk : keyOf s with
      | none => simp [List.filter_cons, find?_cons_eq, hk, ih]
      | some m => simp [List.filter_cons, find?_cons_eq, hk, ih]

lemma filterMap_key_of_filter_isSome (es : List StoredSkill) :
    (es.filter (fun s => (keyOf s).isSome)).filterMap keyOf = es.filterMap keyOf := by
  induction es with
  | nil => rfl
  | cons s t ih =>
      cases hk : keyOf s with
      | none => simp [List.filter_cons, List.filterMap_cons, hk, ih]
      | some m => simp [List.filter_cons, List.filterMap_cons, hk, ih]

lemma specStats_filter_isSome (es : List StoredSkill) :
    specStats (es.filter (fun s => (keyOf s).isSome)) = specStats es := by
  unfold specStats
  have hkeys : statKeys (es.filter (fun s => (keyOf s).isSome)) = statKeys es := by
    unfold statKeys
    rw [filterMap_key_of_filter_isSome]
  have hstat : specStatOf (es.filter (fun s => (keyOf s).isSome)) = specStatOf es := by
    funext n
    unfold specStatOf occCount occConfSum firstSeenCat
    rw [List.countP_eq_length_filter, List.countP_eq_length_filter,
      filter_key_of_filter_isSome, find?_key_of_filter_isSome]
  rw [hkeys, hstat]

/-- The turn of the category-default test case: one blank-named record (to be
skipped) and one record whose category is whitespace (to default). -/
def catTurn : ConversationTurn :=
  ⟨"m", "r", some [⟨some "  ", some "Ignored", some 1, none⟩,
    ⟨some "X", some "  ", some (1/2), none⟩]⟩

/-- C10: records whose name strips to the empty string contribute nothing to
the profile (dropping them leaves the whole ProfileResponse, including
totalSkills, unchanged); every returned stat has a non-empty name and a
non-empty category; and a record with a blank or missing category is counted
under the default category "Skill". -/
theorem profile_blank_name_and_default_category (sid : String)
    (turns : List ConversationTurn) :
    profileOf sid (dropBlankEntries turns) = profileOf sid turns ∧
    (∀ sc ∈ sortedCountsOf turns, sc.name ≠ "" ∧ sc.category ≠ "") ∧
    sortedCountsOf [catTurn] = [⟨"X", "Skill", 1, 1/2⟩] := by
  have hsc : skillCountsOf (dropBlankEntries turns) = skillCountsOf turns := by
    unfold skillCountsOf
    rw [skillStatsOf_eq_specStats, skillStatsOf_eq_specStats, allEntries_dropBlank,
      specStats_filter_isSome]
  have hsorted : sortedCountsOf (dropBlankEntries turns) = sortedCountsOf turns := by
    unfold sortedCountsOf
    rw [hsc]
  refine ⟨?_, ?_, by decide⟩
  · unfold profileOf
    rw [hsorted, hsc]
    unfold dropBlankEntries
    rw [List.length_map]
  · intro sc hsc2
    rcases (mem_sortedCounts turns sc).mp hsc2 with ⟨n, hn, rfl⟩
    rcases (mem_statKeys _ _).mp hn with ⟨s, _, hks⟩
    exact ⟨keyOf_some_ne_empty s n hks, firstSeenCat_ne_empty _ n⟩

/-- Witness for C10 at the category-default test case. -/
theorem profile_blank_name_and_default_category_witness :
    sortedCountsOf [catTurn] = [⟨"X", "Skill", 1, 1/2⟩] :=
  (profile_blank_name_and_default_category "s" [catTurn]).2.2

/-- One reconstructed turn of `GET /api/conversation` (main.py lines 53-57). -/
structure TurnOut where
  user_message : String
  bot_response : String
  skills : List Skill
deriving DecidableEq, Repr

/-- Pydantic validation `Skill(**s)` (main.py line 204): the required `name`
field must be present; the optional fields fall back to their declared
defaults (`category=""`, `confidence=0.0`, `evidence=""`). A record with no
name raises a validation error. -/
def parseSkill (s : StoredSkill) : Except String Skill :=
  match s.name with
  | none => .error "validation error: field name is required"
  | some n => .ok ⟨n, s.category.getD "", s.confidence.getD 0, s.evidence.getD ""⟩

/-- A Python list comprehension over a fallible element operation: the first
raised error aborts the whole comprehension. -/
def mapE {α β : Type} (f : α → Except String β) : List α → Except String (List β)
  | [] => .ok []
  | a :: l =>
      match f a with
      | .error e => .error e
      | .ok b =>
          match mapE f l with
          | .error e => .error e
          | .ok bs => .ok (b :: bs)

/-- Model of `get_conversation` (main.py lines 193-213): rebuild every turn,
validating each stored skill record with `Skill(**s)`; there is no
try/except around the comprehension, so a validation error propagates. -/
def get_conversation (turns : List ConversationTurn) : Except String (List TurnOut) :=
  mapE (fun t =>
    match mapE parseSkill (t.skills_json.getD []) with
    | .error e => .error e
    | .ok sk => .ok ⟨t.user_message, t.bot_response, sk⟩) turns

/-- The behavior claim C4 describes (and chat ingestion, main.py lines
160-172, actually implements): parse each stored record, skip the ones that
fail, and keep listing. -/
def reconstructSkipping (turns : List ConversationTurn) : List TurnOut :=
  turns.map (fun t => ⟨t.user_message, t.bot_response,
    (t.skills_json.getD []).filterMap (fun s => (parseSkill s).toOption)⟩)

/-- A session whose stored history holds one malformed record (no name) next
to a well-formed one. -/
def malformedTurn : ConversationTurn :=
  ⟨"msg", "reply",
    some [⟨none, some "Programming Language", some (7/10), some "python"⟩,
      ⟨some "Python", some "Programming Language", some (7/10), some "python"⟩]⟩

lemma mapE_parse_ok (l : List StoredSkill) (h : ∀ s ∈ l, s.name ≠ none) :
    mapE parseSkill l = .ok (l.filterMap (fun s => (parseSkill s).toOption)) := by
  induction l with
  | nil => rfl
  | cons s t ih =>
      cases hn : s.name with
      | none => exact absurd hn (h s (List.mem_cons_self _ _))
      | some n =>
          have hs : parseSkill s =
              .ok ⟨n, s.category.getD "", s.confidence.getD 0, s.evidence.getD ""⟩ := by
            unfold parseSkill
            rw [hn]
          rw [List.filterMap_cons]
          unfold mapE
          rw [hs, ih (fun x hx => h x (List.mem_cons_of_mem _ hx))]
          rfl

lemma mapE_parse_err (l : List StoredSkill) (h : ∃ s ∈ l, s.name = none) :
    ∃ e, mapE parseSkill l = .error e := by
  induction l with
  | nil => simp at h
  | cons s t ih =>
      cases hn : s.name with
      | none =>
          refine ⟨"validation error: field name is required", ?_⟩
          unfold mapE parseSkill
          rw [hn]
      | some n =>
          have ht : ∃ x ∈ t, x.name = none := by
            rcases h with ⟨x, hx, hxn⟩
            rcases List.mem_cons.mp hx with rfl | hx
            · rw [hn] at hxn
              exact absurd hxn (by simp)
            · exact ⟨x, hx, hxn⟩
          rcases ih ht with ⟨e, he⟩
          refine ⟨e, ?_⟩
          have hs : parseSkill s =
              .ok ⟨n, s.category.getD "", s.confidence.getD 0, s.evidence.getD ""⟩ := by
            unfold parseSkill
            rw [hn]
          unfold mapE
          rw [hs, he]

/-- Counterexample to C4: on a history holding a malformed record next to a
well-formed one, the listing aborts with an error instead of returning the
remaining well-formed records. -/
theorem get_conversation_malformed_counterexample :
    get_conversation [malformedTurn] =
      .error "validation error: field name is required" ∧
    ∀ l : List TurnOut, get_conversation [malformedTurn] ≠ .ok l := by
  constructor
  · rfl
  · intro l h
    rw [show get_conversation [malformedTurn] =
      .error "validation error: field name is required" from rfl] at h
    exact Except.noConfusion h

/-- C4 (amended): reconstructing a session's history validates every persisted
skill record strictly; the listing succeeds, returning all records of every
turn, exactly when every record parses, and a single malformed record aborts
the whole listing with a validation error (records are skipped only at chat
ingestion, not at read time). -/
theorem get_conversation_strict (turns : List ConversationTurn) :
    ((∀ t ∈ turns, ∀ s ∈ t.skills_json.getD [], s.name ≠ none) →
      get_conversation turns = .ok (reconstructSkipping turns)) ∧
    ((∃ t ∈ turns, ∃ s ∈ t.skills_json.getD [], s.name = none) →
      ∃ e, get_conversation turns = .error e) := by
  constructor
  · intro h
    unfold get_conversation reconstructSkipping
    induction turns with
    | nil => rfl
    | cons t ts ih =>
        rw [List.map_cons]
        have ht := mapE_parse_ok (t.skills_json.getD []) (h t (List.mem_cons_self _ _))
        unfold mapE
        rw [ht, ih (fun x hx => h x (List.mem_cons_of_mem _ hx))]
  · intro h
    unfold get_conversation
    induction turns with
    | nil => simp at h
    | cons t ts ih =>
        by_cases hthis : ∃ s ∈ t.skills_json.getD [], s.name = none
        · rcases mapE_parse_err _ hthis with ⟨e, he⟩
          refine ⟨e, ?_⟩
          unfold mapE
          rw [he]
        · have hts : ∃ t' ∈ ts, ∃ s ∈ t'.skills_json.getD [], s.name = none := by
            rcases h with ⟨t', ht', hs⟩
            rcases List.mem_cons.mp ht' with rfl | ht'
            · exact absurd hs hthis
            · exact ⟨t', ht', hs⟩
          have hall : ∀ s ∈ t.skills_json.getD [], s.name ≠ none := by
            intro s hs hn
            exact hthis ⟨s, hs, hn⟩
          rcases ih hts with ⟨e, he⟩
          refine ⟨e, ?_⟩
          unfold mapE
          rw [mapE_parse_ok _ hall, he]

/-- Witness for the amended C4 on a well-formed history. -/
theorem get_conversation_strict_witness :
    get_conversation [⟨"m", "r",
        some [⟨some "Python", some "Programming Language", some (7/10), some "python"⟩]⟩] =
      .ok [⟨"m", "r", [⟨"Python", "Programming Language", 7/10, "python"⟩]⟩] := by
  have h := (get_conversation_strict [⟨"m", "r",
    some [⟨some "Python", some "Programming Language", some (7/10), some "python"⟩]⟩]).1
    (by decide)
  rw [h]
  rfl
